import Mathlib

/-!
Shallow embedding of the bin-packing notebook (`is_valid_packing`, `next_fit`,
`first_fit`, `first_fit_decreasing`).  Item sizes and membership-vector entries
are modelled as rationals (`ℚ`), numpy arrays as lists.  The validator's
`ValueError` and the `IndexError` raised by indexing an empty tuple of bins are
modelled by an `Except` result.  Numpy shape errors on membership vectors whose
length differs from the size array are not modelled (`zip` truncates); all
theorems about the validator restrict to length-matched bins.
-/

namespace BinPacking

/-- The two failure modes of `is_valid_packing`: the explicit `ValueError` for
sizes outside `[0, 1]`, and the `IndexError` from `bins[0]` when the tuple of
bins is empty. -/
inductive ValidatorError where
  | invalidInput
  | indexError
deriving DecidableEq

/-- `np.sum(box_widths[b == 1])`: the total size of the items whose membership
entry in `b` equals `1`. -/
def binLoad (box_widths b : List ℚ) : ℚ :=
  (((box_widths.zip b).filter fun p => decide (p.2 = 1)).map Prod.fst).sum

/-- The `for b in bins` loop of `is_valid_packing`: returns `none` as soon as a
bin's load exceeds `1`, otherwise accumulates the membership vectors into `x`. -/
def checkBins (box_widths : List ℚ) : List (List ℚ) → List ℚ → Option (List ℚ)
  | [], x => some x
  | b :: bs, x =>
    if 1 < binLoad box_widths b then none
    else checkBins box_widths bs (List.zipWith (· + ·) x b)

/-- `is_valid_packing(box_widths, bins)` from the notebook.  Raises
(`Except.error`) on sizes outside `[0, 1]` (`ValueError`) and on an empty bin
sequence (`bins[0]` raises `IndexError`); otherwise returns `False` if some
bin's load exceeds `1` and finally checks `x`, the elementwise sum of all
membership vectors, against the all-ones vector. -/
def is_valid_packing (box_widths : List ℚ) (bins : List (List ℚ)) :
    Except ValidatorError Bool :=
  if (box_widths.any fun s => decide (1 < s)) || (box_widths.any fun s => decide (s < 0)) then
    Except.error ValidatorError.invalidInput
  else
    match bins with
    | [] => Except.error ValidatorError.indexError
    | b0 :: bs =>
      match checkBins box_widths (b0 :: bs) (List.replicate b0.length 0) with
      | none => Except.ok false
      | some x => Except.ok (x.all fun v => decide (v = 1))

/-- The `for i in range(num_boxes)` loop of `next_fit`, over the remaining
`(index, width)` pairs.  A width exceeding `available_space` closes the current
bin; the item is then placed in the (possibly fresh) current bin.  The final
current bin is always appended. -/
def next_fit_loop (num_boxes : ℕ) :
    List (ℕ × ℚ) → List (List ℚ) → List ℚ → ℚ → List (List ℚ)
  | [], bins, current_bin, _ => bins ++ [current_bin]
  | (i, box_width) :: rest, bins, current_bin, available_space =>
    if available_space < box_width then
      next_fit_loop num_boxes rest (bins ++ [current_bin])
        ((List.replicate num_boxes 0).set i 1) (1 - box_width)
    else
      next_fit_loop num_boxes rest bins (current_bin.set i 1)
        (available_space - box_width)

/-- `next_fit(box_widths)` from the notebook. -/
def next_fit (box_widths : List ℚ) : List (List ℚ) :=
  next_fit_loop box_widths.length box_widths.enum []
    (List.replicate box_widths.length 0) 1

/-- The `while not is_box_placed and j < len(bins)` scan of `first_fit`:
each open bin is paired with its `available_space`; the item goes into the
first bin whose available space strictly exceeds its width (`box_width <
available_space[j]`), otherwise into a fresh bin appended at the end. -/
def ff_insert (num_boxes i : ℕ) (box_width : ℚ) :
    List (List ℚ × ℚ) → List (List ℚ × ℚ)
  | [] => [((List.replicate num_boxes 0).set i 1, 1 - box_width)]
  | (b, a) :: rest =>
    if box_width < a then (b.set i 1, a - box_width) :: rest
    else (b, a) :: ff_insert num_boxes i box_width rest

/-- The `for i in range(box_widths.size)` loop of `first_fit`. -/
def first_fit_loop (num_boxes : ℕ) :
    List (ℕ × ℚ) → List (List ℚ × ℚ) → List (List ℚ × ℚ)
  | [], state => state
  | (i, box_width) :: rest, state =>
    first_fit_loop num_boxes rest (ff_insert num_boxes i box_width state)

/-- `first_fit(box_widths)` from the notebook: starts with one empty bin of
available space `1`. -/
def first_fit (box_widths : List ℚ) : List (List ℚ) :=
  (first_fit_loop box_widths.length box_widths.enum
    [(List.replicate box_widths.length 0, 1)]).map Prod.fst

/-- `indices = np.argsort(-box_widths)`: index list sorting the widths in
decreasing order (modelled with a stable sort; numpy's tie order for equal
widths is unspecified, and all claims are insensitive to it). -/
def argsort_decreasing (box_widths : List ℚ) : List ℕ :=
  (List.insertionSort (fun p q => q.2 ≤ p.2) box_widths.enum).map Prod.fst

/-- `undo_sort[indices] = np.arange(box_widths.size)`: scatter-write `k` into
position `indices[k]`. -/
def undo_sort (indices : List ℕ) : List ℕ :=
  indices.enum.foldl (fun acc p => acc.set p.2 p.1)
    (List.replicate indices.length 0)

/-- Numpy fancy indexing `v[indices]`. -/
def permute_by (indices : List ℕ) (v : List ℚ) : List ℚ :=
  indices.map fun i => v.getD i 0

/-- `first_fit_decreasing(box_widths)` from the notebook: sort decreasingly,
run `first_fit`, and un-permute every membership vector back to the original
item order. -/
def first_fit_decreasing (box_widths : List ℚ) : List (List ℚ) :=
  let indices := argsort_decreasing box_widths
  let bins := first_fit (permute_by indices box_widths)
  let undo := undo_sort indices
  bins.map fun b => permute_by undo b

/-- The position of original item `i` in the decreasing sorted order used by
`first_fit_decreasing` (the inverse of `argsort_decreasing`). -/
def sorted_position (box_widths : List ℚ) (i : ℕ) : ℕ :=
  (undo_sort (argsort_decreasing box_widths)).getD i 0

/-! ### Basic lemmas about `getD`, `set`, `replicate`, `zipWith`, `map` -/

theorem getD_set_self {α : Type _} (l : List α) (i : ℕ) (a d : α) (h : i < l.length) :
    (l.set i a).getD i d = a := by
  induction l generalizing i with
  | nil => simp at h
  | cons hd tl ih =>
    cases i with
    | zero => simp
    | succ i => simpa using ih i (by simpa using h)

theorem getD_set_ne {α : Type _} (l : List α) {i j : ℕ} (a d : α) (h : j ≠ i) :
    (l.set i a).getD j d = l.getD j d := by
  induction l generalizing i j with
  | nil => simp
  | cons hd tl ih =>
    cases i with
    | zero =>
      cases j with
      | zero => exact absurd rfl h
      | succ j => simp
    | succ i =>
      cases j with
      | zero => simp
      | succ j => simpa using ih (h := fun e => h (by omega))

theorem getD_replicate_lt {α : Type _} {n i : ℕ} (a d : α) (h : i < n) :
    (List.replicate n a).getD i d = a := by
  induction n generalizing i with
  | zero => omega
  | succ n ih =>
    cases i with
    | zero => simp [List.replicate_succ]
    | succ i => simpa [List.replicate_succ] using ih (by omega)

theorem getD_map_lt {α β : Type _} (f : α → β) (l : List α) {j : ℕ} (d : β) (d' : α)
    (h : j < l.length) : (l.map f).getD j d = f (l.getD j d') := by
  induction l generalizing j with
  | nil => simp at h
  | cons hd tl ih =>
    cases j with
    | zero => simp
    | succ j => simpa using ih (by simpa using h)

theorem getD_zipWith_add (x y : List ℚ) {j : ℕ} (hx : j < x.length) (hy : j < y.length) :
    (List.zipWith (· + ·) x y).getD j 0 = x.getD j 0 + y.getD j 0 := by
  induction x generalizing y j with
  | nil => simp at hx
  | cons a x ih =>
    cases y with
    | nil => simp at hy
    | cons b y =>
      cases j with
      | zero => simp
      | succ j => simpa using ih y (by simpa using hx) (by simpa using hy)

theorem getD_mem {α : Type _} (l : List α) {j : ℕ} (d : α) (h : j < l.length) :
    l.getD j d ∈ l := by
  induction l generalizing j with
  | nil => simp at h
  | cons a l ih =>
    cases j with
    | zero => simp
    | succ j => exact List.mem_cons_of_mem _ (ih (by simpa using h))

theorem mem_enumFrom_spec {α : Type _} (l : List α) (d : α) :
    ∀ (k : ℕ) (p : ℕ × α), p ∈ l.enumFrom k →
      k ≤ p.1 ∧ p.1 - k < l.length ∧ l.getD (p.1 - k) d = p.2 ∧ p.2 ∈ l := by
  induction l with
  | nil =>
    intro k p hp
    simp at hp
  | cons a l ih =>
    intro k p hp
    rw [List.enumFrom_cons] at hp
    rcases List.mem_cons.1 hp with h | h
    · subst h
      exact ⟨le_refl k, by simp, by simp, by simp⟩
    · obtain ⟨h1, h2, h3, h4⟩ := ih (k + 1) p h
      refine ⟨by omega, by simp only [List.length_cons]; omega, ?_,
        List.mem_cons_of_mem _ h4⟩
      have he : p.1 - k = (p.1 - (k + 1)) + 1 := by omega
      rw [he, List.getD_cons_succ]
      exact h3

theorem mem_enum_spec {α : Type _} (l : List α) (d : α) (p : ℕ × α) (hp : p ∈ l.enum) :
    p.1 < l.length ∧ l.getD p.1 d = p.2 ∧ p.2 ∈ l := by
  obtain ⟨h1, h2, h3, h4⟩ :=
    mem_enumFrom_spec l d 0 p (by simpa [List.enum_eq_enumFrom] using hp)
  refine ⟨by omega, ?_, h4⟩
  simpa using h3

theorem self_mem_enumFrom {α : Type _} (l : List α) (d : α) :
    ∀ (k j : ℕ), j < l.length → (k + j, l.getD j d) ∈ l.enumFrom k := by
  induction l with
  | nil =>
    intro k j hj
    simp at hj
  | cons a l ih =>
    intro k j hj
    cases j with
    | zero => simp
    | succ j =>
      rw [List.enumFrom_cons]
      refine List.mem_cons_of_mem _ ?_
      have h2 := ih (k + 1) j (by simpa using hj)
      have he : k + 1 + j = k + (j + 1) := by omega
      rw [List.getD_cons_succ, ← he]
      exact h2

theorem self_mem_enum {α : Type _} (l : List α) (d : α) (k : ℕ) (hk : k < l.length) :
    (k, l.getD k d) ∈ l.enum := by
  have h2 := self_mem_enumFrom l d 0 k hk
  simpa [List.enum_eq_enumFrom] using h2

theorem enum_fst_nodup {α : Type _} (l : List α) : (l.enum.map Prod.fst).Nodup := by
  rw [List.enum_eq_enumFrom, List.enumFrom_map_fst]
  exact List.nodup_range' 0 l.length

/-! ### Lemmas about `binLoad` -/

theorem binLoad_nil_right (ws : List ℚ) : binLoad ws [] = 0 := by
  simp [binLoad]

theorem binLoad_cons (s v : ℚ) (ws b : List ℚ) :
    binLoad (s :: ws) (v :: b) = (if v = 1 then s + binLoad ws b else binLoad ws b) := by
  by_cases h : v = 1 <;> simp [binLoad, h]

theorem binLoad_replicate_zero (ws : List ℚ) (n : ℕ) :
    binLoad ws (List.replicate n 0) = 0 := by
  induction ws generalizing n with
  | nil => simp [binLoad]
  | cons s ws ih =>
    cases n with
    | zero => simp [binLoad]
    | succ n =>
      rw [List.replicate_succ, binLoad_cons]
      simp [ih]

theorem binLoad_set_one (ws : List ℚ) (b : List ℚ) (i : ℕ) (hi : i < ws.length)
    (hib : i < b.length) (hb : b.getD i 0 = 0) :
    binLoad ws (b.set i 1) = binLoad ws b + ws.getD i 0 := by
  induction ws generalizing b i with
  | nil => simp at hi
  | cons s ws ih =>
    cases b with
    | nil => simp at hib
    | cons v b =>
      cases i with
      | zero =>
        have hv : v = 0 := by simpa using hb
        subst hv
        rw [List.set_cons_zero, binLoad_cons, binLoad_cons]
        simp only [List.getD_cons_zero]
        norm_num [add_comm]
      | succ i =>
        have ihb := ih b i (by simpa using hi) (by simpa using hib) (by simpa using hb)
        rw [List.set_cons_succ, binLoad_cons, binLoad_cons, ihb]
        by_cases h : v = 1
        · simp only [if_pos h, List.getD_cons_succ]
          ring
        · simp only [if_neg h, List.getD_cons_succ]

/-! ### The accumulated membership count of the bins at one item index -/

/-- The sum, over all bins, of the membership entry of item `j`. -/
def countAt (bins : List (List ℚ)) (j : ℕ) : ℚ :=
  (bins.map fun b => b.getD j 0).sum

theorem countAt_nil (j : ℕ) : countAt [] j = 0 := rfl

theorem countAt_cons (b : List ℚ) (bins : List (List ℚ)) (j : ℕ) :
    countAt (b :: bins) j = b.getD j 0 + countAt bins j := by
  simp [countAt]

theorem countAt_append (bs cs : List (List ℚ)) (j : ℕ) :
    countAt (bs ++ cs) j = countAt bs j + countAt cs j := by
  simp [countAt]

/-! ### Lemmas about `checkBins` and the validator -/

theorem checkBins_all_ok (ws : List ℚ) (bins : List (List ℚ)) (x : List ℚ)
    (h : ∀ b ∈ bins, binLoad ws b ≤ 1) :
    checkBins ws bins x = some (bins.foldl (List.zipWith (· + ·)) x) := by
  induction bins generalizing x with
  | nil => simp [checkBins]
  | cons b bins ih =>
    rw [checkBins, if_neg (by simpa using h b (by simp))]
    rw [ih _ fun c hc => h c (by simp [hc])]
    simp

theorem checkBins_overload (ws : List ℚ) (pre : List (List ℚ)) (c : List ℚ)
    (post : List (List ℚ)) (x : List ℚ)
    (hpre : ∀ b ∈ pre, binLoad ws b ≤ 1) (hc : 1 < binLoad ws c) :
    checkBins ws (pre ++ c :: post) x = none := by
  induction pre generalizing x with
  | nil => simp only [List.nil_append, checkBins, if_pos hc]
  | cons b pre ih =>
    rw [List.cons_append, checkBins, if_neg (by simpa using hpre b (by simp))]
    exact ih _ fun d hd => hpre d (by simp [hd])

theorem foldl_zipWith_length (bins : List (List ℚ)) (x : List ℚ)
    (h : ∀ b ∈ bins, b.length = x.length) :
    (bins.foldl (List.zipWith (· + ·)) x).length = x.length := by
  induction bins generalizing x with
  | nil => rfl
  | cons b bins ih =>
    rw [List.foldl_cons, ih]
    · simp [List.length_zipWith, h b (by simp)]
    · intro c hc
      simp [List.length_zipWith, h b (by simp), h c (by simp [hc])]

theorem foldl_zipWith_getD (bins : List (List ℚ)) (x : List ℚ) (j : ℕ)
    (h : ∀ b ∈ bins, b.length = x.length) (hj : j < x.length) :
    (bins.foldl (List.zipWith (· + ·)) x).getD j 0 = x.getD j 0 + countAt bins j := by
  induction bins generalizing x with
  | nil => simp [countAt_nil]
  | cons b bins ih =>
    rw [List.foldl_cons, countAt_cons,
      ih (List.zipWith (· + ·) x b)
        (fun c hc => by simp [List.length_zipWith, h b (by simp), h c (by simp [hc])])
        (by simp [List.length_zipWith, h b (by simp), hj]),
      getD_zipWith_add x b hj (by rw [h b (by simp)]; exact hj)]
    ring

theorem sizes_check_false (ws : List ℚ) (hws : ∀ s ∈ ws, 0 ≤ s ∧ s ≤ 1) :
    ((ws.any fun s => decide (1 < s)) || (ws.any fun s => decide (s < 0))) = false := by
  simp only [Bool.or_eq_false_iff, List.any_eq_false, decide_eq_true_eq]
  constructor
  · intro s hs
    exact not_lt.2 (hws s hs).2
  · intro s hs
    exact not_lt.2 (hws s hs).1

/-- On valid sizes the initial size check passes and the validator reduces to
the loop over the bins. -/
theorem is_valid_packing_eq_of_sizes_ok (ws : List ℚ) (b0 : List ℚ) (bs : List (List ℚ))
    (hws : ∀ s ∈ ws, 0 ≤ s ∧ s ≤ 1) :
    is_valid_packing ws (b0 :: bs) =
      match checkBins ws (b0 :: bs) (List.replicate b0.length 0) with
      | none => Except.ok false
      | some x => Except.ok (x.all fun v => decide (v = 1)) := by
  unfold is_valid_packing
  rw [sizes_check_false ws hws]
  rfl

/-- With valid sizes and a nonempty, length-matched bin sequence whose loads
are all within capacity, the validator returns `true` exactly when the
elementwise sum of the membership vectors is the all-ones vector. -/
theorem is_valid_packing_ok_iff (ws : List ℚ) (b0 : List ℚ) (bs : List (List ℚ))
    (hws : ∀ s ∈ ws, 0 ≤ s ∧ s ≤ 1)
    (hlen : ∀ b ∈ b0 :: bs, b.length = ws.length)
    (hload : ∀ b ∈ b0 :: bs, binLoad ws b ≤ 1) :
    (is_valid_packing ws (b0 :: bs) = Except.ok true ↔
      (b0 :: bs).foldl (List.zipWith (· + ·)) (List.replicate ws.length 0) =
        List.replicate ws.length 1) := by
  have hb0 : b0.length = ws.length := hlen b0 (by simp)
  have hlen2 : ∀ b ∈ b0 :: bs, b.length = (List.replicate ws.length (0 : ℚ)).length := by
    simpa using hlen
  have hxlen : ((b0 :: bs).foldl (List.zipWith (· + ·))
      (List.replicate ws.length 0)).length = ws.length := by
    rw [foldl_zipWith_length (b0 :: bs) _ hlen2]
    simp
  have hred : is_valid_packing ws (b0 :: bs) =
      Except.ok (((b0 :: bs).foldl (List.zipWith (· + ·))
        (List.replicate ws.length 0)).all fun v => decide (v = 1)) := by
    rw [is_valid_packing_eq_of_sizes_ok ws b0 bs hws,
      show (List.replicate b0.length (0 : ℚ)) = List.replicate ws.length 0 by rw [hb0],
      checkBins_all_ok ws _ _ hload]
  rw [hred]
  constructor
  · intro h
    have hall : ∀ v ∈ (b0 :: bs).foldl (List.zipWith (· + ·))
        (List.replicate ws.length 0), v = 1 := by
      have hb : (((b0 :: bs).foldl (List.zipWith (· + ·))
          (List.replicate ws.length 0)).all fun v => decide (v = 1)) = true :=
        Except.ok.inj h
      intro v hv
      simpa using List.all_eq_true.1 hb v hv
    apply List.ext_getElem (by rw [hxlen]; simp)
    intro j h1 h2
    have hj : j < ws.length := by rwa [hxlen] at h1
    rw [← List.getD_eq_getElem _ 0 h1, ← List.getD_eq_getElem _ 0 h2]
    rw [hall _ (getD_mem _ 0 h1), getD_replicate_lt _ _ hj]
  · intro h
    have hb : (((b0 :: bs).foldl (List.zipWith (· + ·))
        (List.replicate ws.length 0)).all fun v => decide (v = 1)) = true := by
      rw [List.all_eq_true]
      intro v hv
      rw [h] at hv
      simpa using List.eq_of_mem_replicate hv
    rw [hb]

theorem is_valid_packing_overload (ws : List ℚ) (pre : List (List ℚ)) (c : List ℚ)
    (post : List (List ℚ))
    (hws : ∀ s ∈ ws, 0 ≤ s ∧ s ≤ 1)
    (hpre : ∀ b ∈ pre, binLoad ws b ≤ 1) (hc : 1 < binLoad ws c) :
    is_valid_packing ws (pre ++ c :: post) = Except.ok false := by
  obtain ⟨b0, bs, hsplit⟩ : ∃ b0 bs, pre ++ c :: post = b0 :: bs := by
    cases pre with
    | nil => exact ⟨c, post, rfl⟩
    | cons p pre => exact ⟨p, pre ++ c :: post, rfl⟩
  rw [hsplit, is_valid_packing_eq_of_sizes_ok ws b0 bs hws, ← hsplit,
    checkBins_overload ws pre c post _ hpre hc]

/-! ### Claim theorems about the validator (C3, C6) -/

/-- Claim C3 (amended): with every size in `[0, 1]` and a *nonempty* packing of 0/1
membership vectors of length `n`, the validator returns `false` whenever some
bin's load exceeds `1` — regardless of the bins that come after it — and
otherwise returns `true` iff the elementwise sum of the membership vectors is
the all-ones vector.  (On an empty bin sequence the code indexes `bins[0]` and
fails instead of returning, which is why nonemptiness is required.) -/
theorem is_valid_packing_spec (ws : List ℚ) (bins : List (List ℚ))
    (hws : ∀ s ∈ ws, 0 ≤ s ∧ s ≤ 1)
    (hne : bins ≠ [])
    (hlen : ∀ b ∈ bins, b.length = ws.length)
    (h01 : ∀ b ∈ bins, ∀ v ∈ b, v = 0 ∨ v = 1) :
    (∀ pre c post post', bins = pre ++ c :: post →
      (∀ b ∈ pre, binLoad ws b ≤ 1) → 1 < binLoad ws c →
      is_valid_packing ws (pre ++ c :: post') = Except.ok false) ∧
    ((∀ b ∈ bins, binLoad ws b ≤ 1) →
      (is_valid_packing ws bins = Except.ok true ↔
        bins.foldl (List.zipWith (· + ·)) (List.replicate ws.length 0) =
          List.replicate ws.length 1)) := by
  constructor
  · intro pre c post post' _ hpre hc
    exact is_valid_packing_overload ws pre c post' hws hpre hc
  · intro hload
    cases bins with
    | nil => exact absurd rfl hne
    | cons b0 bs => exact is_valid_packing_ok_iff ws b0 bs hws hlen hload

/-- Claim C3 counterexample: on the empty size sequence with an empty bin sequence the
claim as stated demands the validator return `true` (no bin exceeds capacity and
the empty elementwise sum trivially equals the length-0 all-ones vector), but
the code indexes `bins[0]` and fails with an `IndexError` instead. -/
theorem is_valid_packing_empty_bins_fails :
    is_valid_packing [] [] = Except.error ValidatorError.indexError ∧
      is_valid_packing [] [] ≠ Except.ok true := by
  constructor
  · rfl
  · intro h
    have h2 : (Except.error ValidatorError.indexError : Except ValidatorError Bool) =
        Except.ok true := h
    exact Except.noConfusion h2

/-- Witness for `is_valid_packing_spec` at the notebook's own test data. -/
theorem is_valid_packing_spec_witness :
    is_valid_packing [3/10, 6/10, 9/10] [[1,1,0],[0,0,1]] = Except.ok true ↔
      ([[1,1,0],[0,0,1]] : List (List ℚ)).foldl (List.zipWith (· + ·))
        (List.replicate ([(3:ℚ)/10, 6/10, 9/10] : List ℚ).length 0) =
        List.replicate ([(3:ℚ)/10, 6/10, 9/10] : List ℚ).length 1 :=
  (is_valid_packing_spec [3/10, 6/10, 9/10] [[1,1,0],[0,0,1]]
    (by with_unfolding_all decide)
    (by simp)
    (by with_unfolding_all decide)
    (by with_unfolding_all decide)).2
    (by with_unfolding_all decide)

/-- Claim C6: the validator signals `InvalidInput` (the `ValueError`) exactly when
some size lies outside `[0, 1]`, for every length-matched bin sequence alike —
in particular the rejection happens before and independently of any bin
validation, and sizes are never clamped. -/
theorem is_valid_packing_invalid_input_iff (ws : List ℚ) (bins : List (List ℚ))
    (hlen : ∀ b ∈ bins, b.length = ws.length) :
    is_valid_packing ws bins = Except.error ValidatorError.invalidInput ↔
      ∃ s ∈ ws, s < 0 ∨ 1 < s := by
  constructor
  · intro h
    by_contra hno
    push_neg at hno
    have hws : ∀ s ∈ ws, 0 ≤ s ∧ s ≤ 1 := hno
    cases bins with
    | nil =>
      have h2 : is_valid_packing ws [] = Except.error ValidatorError.indexError := by
        unfold is_valid_packing
        rw [sizes_check_false ws hws]
        rfl
      rw [h2] at h
      simp at h
    | cons b0 bs =>
      rw [is_valid_packing_eq_of_sizes_ok ws b0 bs hws] at h
      cases hcb : checkBins ws (b0 :: bs) (List.replicate b0.length 0) with
      | none => rw [hcb] at h; simp at h
      | some x => rw [hcb] at h; simp at h
  · intro h
    obtain ⟨s, hs, hout⟩ := h
    have hcond : ((ws.any fun s => decide (1 < s)) ||
        (ws.any fun s => decide (s < 0))) = true := by
      rw [Bool.or_eq_true, List.any_eq_true, List.any_eq_true]
      cases hout with
      | inl hlt => exact Or.inr ⟨s, hs, by simpa using hlt⟩
      | inr hlt => exact Or.inl ⟨s, hs, by simpa using hlt⟩
    unfold is_valid_packing
    rw [hcond]
    rfl

/-- Witness for `is_valid_packing_invalid_input_iff`. -/
theorem is_valid_packing_invalid_input_witness :
    is_valid_packing [2] [[1]] = Except.error ValidatorError.invalidInput ↔
      ∃ s ∈ ([2] : List ℚ), s < 0 ∨ 1 < s :=
  is_valid_packing_invalid_input_iff [2] [[1]] (by simp)

/-! ### Glue: a packing with the right lengths, loads and counts validates -/

theorem getD_replicate_zero (n j : ℕ) : (List.replicate n (0 : ℚ)).getD j 0 = 0 := by
  rcases lt_or_le j n with h | h
  · exact getD_replicate_lt 0 0 h
  · exact List.getD_eq_default _ _ (by simpa using h)

theorem foldl_eq_ones_of_countAt (ws : List ℚ) (bins : List (List ℚ))
    (hlen : ∀ b ∈ bins, b.length = ws.length)
    (hcount : ∀ j, j < ws.length → countAt bins j = 1) :
    bins.foldl (List.zipWith (· + ·)) (List.replicate ws.length 0) =
      List.replicate ws.length 1 := by
  have hlen2 : ∀ b ∈ bins, b.length = (List.replicate ws.length (0 : ℚ)).length := by
    simpa using hlen
  apply List.ext_getElem
  · rw [foldl_zipWith_length _ _ hlen2]
    simp
  · intro j h1 h2
    have hj : j < ws.length := by
      have hle := foldl_zipWith_length _ _ hlen2
      rw [hle] at h1
      simpa using h1
    rw [← List.getD_eq_getElem _ 0 h1, ← List.getD_eq_getElem _ 0 h2,
      foldl_zipWith_getD _ _ _ hlen2 (by simpa using hj),
      getD_replicate_lt 1 0 hj, getD_replicate_zero, hcount j hj]
    ring

theorem valid_of_packing_props (ws : List ℚ) (bins : List (List ℚ))
    (hws : ∀ s ∈ ws, 0 ≤ s ∧ s ≤ 1)
    (hne : bins ≠ [])
    (hlen : ∀ b ∈ bins, b.length = ws.length)
    (hload : ∀ b ∈ bins, binLoad ws b ≤ 1)
    (hcount : ∀ j, j < ws.length → countAt bins j = 1) :
    is_valid_packing ws bins = Except.ok true := by
  cases bins with
  | nil => exact absurd rfl hne
  | cons b0 bs =>
    rw [is_valid_packing_ok_iff ws b0 bs hws hlen hload]
    exact foldl_eq_ones_of_countAt ws (b0 :: bs) hlen hcount

/-! ### Invariants of the NEXT-FIT loop -/

theorem next_fit_loop_ne_nil (n : ℕ) (items : List (ℕ × ℚ)) (bins : List (List ℚ))
    (cur : List ℚ) (avail : ℚ) : next_fit_loop n items bins cur avail ≠ [] := by
  induction items generalizing bins cur avail with
  | nil => simp [next_fit_loop]
  | cons p rest ih =>
    obtain ⟨i, w⟩ := p
    rw [next_fit_loop]
    by_cases hc : avail < w
    · rw [if_pos hc]
      exact ih _ _ _
    · rw [if_neg hc]
      exact ih _ _ _

theorem next_fit_loop_length (ws : List ℚ) (items : List (ℕ × ℚ)) (bins : List (List ℚ))
    (cur : List ℚ) (avail : ℚ)
    (hcur : cur.length = ws.length) (hbins : ∀ b ∈ bins, b.length = ws.length) :
    ∀ b ∈ next_fit_loop ws.length items bins cur avail, b.length = ws.length := by
  induction items generalizing bins cur avail with
  | nil =>
    intro b hb
    rw [next_fit_loop] at hb
    rcases List.mem_append.1 hb with h | h
    · exact hbins b h
    · rw [List.mem_singleton.1 h]
      exact hcur
  | cons p rest ih =>
    obtain ⟨i, w⟩ := p
    intro b hb
    rw [next_fit_loop] at hb
    by_cases hc : avail < w
    · rw [if_pos hc] at hb
      refine ih _ _ _ (by simp) ?_ b hb
      intro c hc2
      rcases List.mem_append.1 hc2 with h | h
      · exact hbins c h
      · rw [List.mem_singleton.1 h]
        exact hcur
    · rw [if_neg hc] at hb
      exact ih _ _ _ (by simpa using hcur) hbins b hb

theorem next_fit_loop_load (ws : List ℚ) (items : List (ℕ × ℚ)) (bins : List (List ℚ))
    (cur : List ℚ) (avail : ℚ)
    (hitems : ∀ p ∈ items, p.1 < ws.length ∧ ws.getD p.1 0 = p.2 ∧ 0 < p.2 ∧ p.2 < 1)
    (hnodup : (items.map Prod.fst).Nodup)
    (hfresh : ∀ p ∈ items, cur.getD p.1 0 = 0)
    (hcur : cur.length = ws.length)
    (hload_cur : binLoad ws cur = 1 - avail)
    (havail : 0 ≤ avail)
    (hbins : ∀ b ∈ bins, binLoad ws b ≤ 1) :
    ∀ b ∈ next_fit_loop ws.length items bins cur avail, binLoad ws b ≤ 1 := by
  induction items generalizing bins cur avail with
  | nil =>
    intro b hb
    rw [next_fit_loop] at hb
    rcases List.mem_append.1 hb with h | h
    · exact hbins b h
    · rw [List.mem_singleton.1 h, hload_cur]
      linarith
  | cons p rest ih =>
    obtain ⟨i, w⟩ := p
    obtain ⟨hi, hwi, hwpos, hwlt⟩ := hitems (i, w) (by simp)
    have hnodup2 : (rest.map Prod.fst).Nodup := (List.nodup_cons.1 (by simpa using hnodup)).2
    have hinotin : i ∉ rest.map Prod.fst := (List.nodup_cons.1 (by simpa using hnodup)).1
    have hne_of_mem : ∀ q ∈ rest, q.1 ≠ i := by
      intro q hq he
      exact hinotin (he ▸ List.mem_map_of_mem Prod.fst hq)
    intro b hb
    rw [next_fit_loop] at hb
    by_cases hc : avail < w
    · rw [if_pos hc] at hb
      refine ih _ _ _ (fun q hq => hitems q (by simp [hq])) hnodup2 ?_ (by simp) ?_ ?_ ?_ b hb
      · intro q hq
        rw [getD_set_ne _ _ _ (hne_of_mem q hq)]
        exact getD_replicate_zero _ _
      · rw [binLoad_set_one ws _ i hi (by simpa using hi) (getD_replicate_zero _ _),
          binLoad_replicate_zero, hwi]
        ring
      · linarith
      · intro c hc2
        rcases List.mem_append.1 hc2 with h | h
        · exact hbins c h
        · rw [List.mem_singleton.1 h, hload_cur]
          linarith
    · rw [if_neg hc] at hb
      push_neg at hc
      refine ih _ _ _ (fun q hq => hitems q (by simp [hq])) hnodup2 ?_
        (by simpa using hcur) ?_ (by linarith) hbins b hb
      · intro q hq
        rw [getD_set_ne _ _ _ (hne_of_mem q hq)]
        exact (hfresh q (by simp [hq]))
      · rw [binLoad_set_one ws cur i hi (by rw [hcur]; exact hi)
          (hfresh (i, w) (by simp)), hload_cur, hwi]
        ring

theorem next_fit_loop_countAt (ws : List ℚ) (items : List (ℕ × ℚ)) (bins : List (List ℚ))
    (cur : List ℚ) (avail : ℚ) (j : ℕ)
    (hitems : ∀ p ∈ items, p.1 < ws.length)
    (hnodup : (items.map Prod.fst).Nodup)
    (hfresh : ∀ p ∈ items, cur.getD p.1 0 = 0)
    (hcur : cur.length = ws.length) :
    countAt (next_fit_loop ws.length items bins cur avail) j =
      countAt (bins ++ [cur]) j +
        (if j ∈ items.map Prod.fst then 1 else 0) := by
  induction items generalizing bins cur avail with
  | nil =>
    rw [next_fit_loop]
    simp
  | cons p rest ih =>
    obtain ⟨i, w⟩ := p
    have hi : i < ws.length := hitems (i, w) (by simp)
    have hnodup2 : (rest.map Prod.fst).Nodup := (List.nodup_cons.1 (by simpa using hnodup)).2
    have hinotin : i ∉ rest.map Prod.fst := (List.nodup_cons.1 (by simpa using hnodup)).1
    have hne_of_mem : ∀ q ∈ rest, q.1 ≠ i := by
      intro q hq he
      exact hinotin (he ▸ List.mem_map_of_mem Prod.fst hq)
    rw [next_fit_loop]
    by_cases hc : avail < w
    · rw [if_pos hc]
      have hfresh2 : ∀ q ∈ rest,
          ((List.replicate ws.length (0 : ℚ)).set i 1).getD q.1 0 = 0 := by
        intro q hq
        rw [getD_set_ne _ _ _ (hne_of_mem q hq)]
        exact getD_replicate_zero _ _
      rw [ih _ _ _ (fun q hq => hitems q (by simp [hq])) hnodup2 hfresh2 (by simp)]
      simp only [countAt_append, countAt_cons, countAt_nil]
      have hiff : (j ∈ List.map Prod.fst ((i, w) :: rest)) ↔
          (j = i ∨ j ∈ List.map Prod.fst rest) := by
        simp
      by_cases hji : j = i
      · subst hji
        rw [getD_set_self _ _ _ _ (by simp [hi]), if_neg hinotin,
          if_pos (hiff.2 (Or.inl rfl))]
        ring
      · rw [getD_set_ne _ _ _ hji, getD_replicate_zero]
        by_cases hjr : j ∈ List.map Prod.fst rest
        · rw [if_pos hjr, if_pos (hiff.2 (Or.inr hjr))]
          ring
        · rw [if_neg hjr, if_neg (fun h => (hiff.1 h).elim hji hjr)]
          ring
    · rw [if_neg hc]
      have hfresh2 : ∀ q ∈ rest, (cur.set i 1).getD q.1 0 = 0 := by
        intro q hq
        rw [getD_set_ne _ _ _ (hne_of_mem q hq)]
        exact hfresh q (by simp [hq])
      rw [ih _ _ _ (fun q hq => hitems q (by simp [hq])) hnodup2 hfresh2
        (by simpa using hcur)]
      simp only [countAt_append, countAt_cons, countAt_nil]
      have hiff : (j ∈ List.map Prod.fst ((i, w) :: rest)) ↔
          (j = i ∨ j ∈ List.map Prod.fst rest) := by
        simp
      by_cases hji : j = i
      · subst hji
        rw [getD_set_self _ _ _ _ (by rw [hcur]; exact hi),
          hfresh (j, w) (by simp), if_neg hinotin, if_pos (hiff.2 (Or.inl rfl))]
        ring
      · rw [getD_set_ne _ _ _ hji]
        by_cases hjr : j ∈ List.map Prod.fst rest
        · rw [if_pos hjr, if_pos (hiff.2 (Or.inr hjr))]
        · rw [if_neg hjr, if_neg (fun h => (hiff.1 h).elim hji hjr)]

theorem next_fit_loop_nonempty_bins (ws : List ℚ) (items : List (ℕ × ℚ))
    (bins : List (List ℚ)) (cur : List ℚ) (avail : ℚ)
    (hitems : ∀ p ∈ items, p.1 < ws.length ∧ p.2 < 1)
    (hcur : cur.length = ws.length)
    (hbins : ∀ b ∈ bins, ∃ j, b.getD j 0 = 1)
    (hcura : (∃ j, cur.getD j 0 = 1) ∨ avail = 1)
    (hlast : items = [] → ∃ j, cur.getD j 0 = 1) :
    ∀ b ∈ next_fit_loop ws.length items bins cur avail, ∃ j, b.getD j 0 = 1 := by
  induction items generalizing bins cur avail with
  | nil =>
    intro b hb
    rw [next_fit_loop] at hb
    rcases List.mem_append.1 hb with h | h
    · exact hbins b h
    · rw [List.mem_singleton.1 h]
      exact hlast rfl
  | cons p rest ih =>
    obtain ⟨i, w⟩ := p
    obtain ⟨hi, hwlt⟩ := hitems (i, w) (by simp)
    intro b hb
    rw [next_fit_loop] at hb
    by_cases hc : avail < w
    · rw [if_pos hc] at hb
      have hcurne : ∃ j, cur.getD j 0 = 1 := by
        rcases hcura with h | h
        · exact h
        · exfalso
          rw [h] at hc
          linarith
      refine ih _ _ _ (fun q hq => hitems q (by simp [hq])) (by simp) ?_ ?_ ?_ b hb
      · intro c hc2
        rcases List.mem_append.1 hc2 with h | h
        · exact hbins c h
        · rw [List.mem_singleton.1 h]
          exact hcurne
      · exact Or.inl ⟨i, getD_set_self _ _ _ _ (by simpa using hi)⟩
      · intro _
        exact ⟨i, getD_set_self _ _ _ _ (by simpa using hi)⟩
    · rw [if_neg hc] at hb
      refine ih _ _ _ (fun q hq => hitems q (by simp [hq])) (by simpa using hcur)
        hbins ?_ ?_ b hb
      · exact Or.inl ⟨i, getD_set_self _ _ _ _ (by rw [hcur]; exact hi)⟩
      · intro _
        exact ⟨i, getD_set_self _ _ _ _ (by rw [hcur]; exact hi)⟩

/-- Packaged invariants of `next_fit` on widths in `(0, 1)`. -/
theorem next_fit_props (ws : List ℚ) (hws : ∀ s ∈ ws, 0 < s ∧ s < 1) :
    next_fit ws ≠ [] ∧
    (∀ b ∈ next_fit ws, b.length = ws.length) ∧
    (∀ b ∈ next_fit ws, binLoad ws b ≤ 1) ∧
    (∀ j, j < ws.length → countAt (next_fit ws) j = 1) := by
  have hitems : ∀ p ∈ ws.enum, p.1 < ws.length ∧ ws.getD p.1 0 = p.2 ∧ 0 < p.2 ∧ p.2 < 1 := by
    intro p hp
    obtain ⟨h1, h2, h3⟩ := mem_enum_spec ws 0 p hp
    exact ⟨h1, h2, (hws p.2 h3).1, (hws p.2 h3).2⟩
  have hfresh : ∀ p ∈ ws.enum, (List.replicate ws.length (0 : ℚ)).getD p.1 0 = 0 :=
    fun p _ => getD_replicate_zero _ _
  refine ⟨next_fit_loop_ne_nil _ _ _ _ _, ?_, ?_, ?_⟩
  · exact next_fit_loop_length ws ws.enum [] _ 1 (by simp) (by simp)
  · exact next_fit_loop_load ws ws.enum [] _ 1 hitems (enum_fst_nodup ws) hfresh
      (by simp) (by rw [binLoad_replicate_zero]; ring) (by norm_num) (by simp)
  · intro j hj
    rw [next_fit, next_fit_loop_countAt ws ws.enum [] _ 1 j
      (fun p hp => (hitems p hp).1) (enum_fst_nodup ws) hfresh (by simp)]
    have hjmem : j ∈ ws.enum.map Prod.fst := by
      rw [List.enum_eq_enumFrom, List.enumFrom_map_fst]
      simpa using hj
    rw [if_pos hjmem]
    rw [countAt_append, countAt_nil, countAt_cons, countAt_nil, getD_replicate_zero]
    ring

/-! ### Invariants of the FIRST-FIT insertion scan and loop -/

theorem ff_insert_place (n i : ℕ) (w : ℚ) (pre : List (List ℚ × ℚ)) (b : List ℚ) (a : ℚ)
    (post : List (List ℚ × ℚ)) (hpre : ∀ p ∈ pre, p.2 ≤ w) (hfit : w < a) :
    ff_insert n i w (pre ++ (b, a) :: post) = pre ++ (b.set i 1, a - w) :: post := by
  induction pre with
  | nil => simp only [List.nil_append, ff_insert, if_pos hfit]
  | cons q pre ih =>
    obtain ⟨qb, qa⟩ := q
    have hqa : ¬ w < qa := not_lt.2 (by simpa using hpre (qb, qa) (by simp))
    simp only [List.cons_append]
    rw [ff_insert, if_neg hqa, ih fun p hp => hpre p (by simp [hp])]

theorem ff_insert_new_bin (n i : ℕ) (w : ℚ) (state : List (List ℚ × ℚ))
    (hnofit : ∀ p ∈ state, p.2 ≤ w) :
    ff_insert n i w state = state ++ [((List.replicate n 0).set i 1, 1 - w)] := by
  induction state with
  | nil => rfl
  | cons q state ih =>
    obtain ⟨qb, qa⟩ := q
    have hqa : ¬ w < qa := not_lt.2 (by simpa using hnofit (qb, qa) (by simp))
    rw [ff_insert, if_neg hqa, ih fun p hp => hnofit p (by simp [hp]), List.cons_append]

theorem ff_insert_ne_nil (n i : ℕ) (w : ℚ) (state : List (List ℚ × ℚ)) :
    ff_insert n i w state ≠ [] := by
  cases state with
  | nil => simp [ff_insert]
  | cons q state =>
    obtain ⟨qb, qa⟩ := q
    rw [ff_insert]
    by_cases hc : w < qa
    · rw [if_pos hc]
      simp
    · rw [if_neg hc]
      simp

theorem ff_insert_length (n i : ℕ) (w : ℚ) (state : List (List ℚ × ℚ))
    (hlen : ∀ p ∈ state, p.1.length = n) :
    ∀ p ∈ ff_insert n i w state, p.1.length = n := by
  induction state with
  | nil =>
    intro p hp
    rw [show ff_insert n i w [] = [((List.replicate n 0).set i 1, 1 - w)] from rfl] at hp
    rw [List.mem_singleton.1 hp]
    simp
  | cons q state ih =>
    obtain ⟨qb, qa⟩ := q
    intro p hp
    rw [ff_insert] at hp
    by_cases hc : w < qa
    · rw [if_pos hc] at hp
      rcases List.mem_cons.1 hp with h | h
      · rw [h]
        simpa using hlen (qb, qa) (by simp)
      · exact hlen p (by simp [h])
    · rw [if_neg hc] at hp
      rcases List.mem_cons.1 hp with h | h
      · rw [h]
        exact hlen (qb, qa) (by simp)
      · exact ih (fun p hp => hlen p (by simp [hp])) p h

theorem ff_insert_load (ws : List ℚ) (i : ℕ) (w : ℚ) (state : List (List ℚ × ℚ))
    (hi : i < ws.length) (hwi : ws.getD i 0 = w) (hw1 : w < 1)
    (hinv : ∀ p ∈ state, binLoad ws p.1 = 1 - p.2 ∧ 0 ≤ p.2)
    (hlen : ∀ p ∈ state, p.1.length = ws.length)
    (hfresh : ∀ p ∈ state, p.1.getD i 0 = 0) :
    ∀ p ∈ ff_insert ws.length i w state, binLoad ws p.1 = 1 - p.2 ∧ 0 ≤ p.2 := by
  induction state with
  | nil =>
    intro p hp
    rw [show ff_insert ws.length i w [] =
      [((List.replicate ws.length 0).set i 1, 1 - w)] from rfl] at hp
    rw [List.mem_singleton.1 hp]
    constructor
    · rw [binLoad_set_one ws _ i hi (by simpa using hi) (getD_replicate_zero _ _),
        binLoad_replicate_zero, hwi]
      ring
    · simp only []
      linarith
  | cons q state ih =>
    obtain ⟨qb, qa⟩ := q
    intro p hp
    rw [ff_insert] at hp
    by_cases hc : w < qa
    · rw [if_pos hc] at hp
      rcases List.mem_cons.1 hp with h | h
      · obtain ⟨h1, _⟩ := hinv (qb, qa) (by simp)
        rw [h]
        constructor
        · rw [binLoad_set_one ws qb i hi
            (by rw [hlen (qb, qa) (by simp)]; exact hi) (hfresh (qb, qa) (by simp)),
            h1, hwi]
          ring
        · simp only []
          linarith
      · exact hinv p (by simp [h])
    · rw [if_neg hc] at hp
      rcases List.mem_cons.1 hp with h | h
      · rw [h]
        exact hinv (qb, qa) (by simp)
      · exact ih (fun p hp => hinv p (by simp [hp])) (fun p hp => hlen p (by simp [hp]))
          (fun p hp => hfresh p (by simp [hp])) p h

theorem ff_insert_countAt (n i : ℕ) (w : ℚ) (state : List (List ℚ × ℚ)) (j : ℕ)
    (hi : i < n)
    (hlen : ∀ p ∈ state, p.1.length = n)
    (hfresh : ∀ p ∈ state, p.1.getD i 0 = 0) :
    countAt ((ff_insert n i w state).map Prod.fst) j =
      countAt (state.map Prod.fst) j + (if j = i then 1 else 0) := by
  induction state with
  | nil =>
    rw [show ff_insert n i w [] = [((List.replicate n 0).set i 1, 1 - w)] from rfl]
    simp only [List.map_cons, List.map_nil, countAt_cons, countAt_nil]
    by_cases hji : j = i
    · subst hji
      rw [getD_set_self _ _ _ _ (by simp [hi]), if_pos rfl]
      ring
    · rw [getD_set_ne _ _ _ hji, getD_replicate_zero, if_neg hji]
  | cons q state ih =>
    obtain ⟨qb, qa⟩ := q
    rw [ff_insert]
    by_cases hc : w < qa
    · rw [if_pos hc]
      simp only [List.map_cons, countAt_cons]
      by_cases hji : j = i
      · subst hji
        rw [getD_set_self _ _ _ _ (by rw [hlen (qb, qa) (by simp)]; exact hi),
          hfresh (qb, qa) (by simp), if_pos rfl]
        ring
      · rw [getD_set_ne _ _ _ hji, if_neg hji]
        ring
    · rw [if_neg hc]
      simp only [List.map_cons, countAt_cons]
      rw [ih (fun p hp => hlen p (by simp [hp])) (fun p hp => hfresh p (by simp [hp]))]
      ring

theorem ff_insert_fresh (n i : ℕ) (w : ℚ) (state : List (List ℚ × ℚ)) (q : ℕ)
    (hq : q ≠ i)
    (hfresh : ∀ p ∈ state, p.1.getD q 0 = 0) :
    ∀ p ∈ ff_insert n i w state, p.1.getD q 0 = 0 := by
  induction state with
  | nil =>
    intro p hp
    rw [show ff_insert n i w [] = [((List.replicate n 0).set i 1, 1 - w)] from rfl] at hp
    rw [List.mem_singleton.1 hp]
    rw [show (((List.replicate n 0).set i 1, 1 - w) : List ℚ × ℚ).1 =
      (List.replicate n 0).set i 1 from rfl, getD_set_ne _ _ _ hq]
    exact getD_replicate_zero _ _
  | cons p0 state ih =>
    obtain ⟨qb, qa⟩ := p0
    intro p hp
    rw [ff_insert] at hp
    by_cases hc : w < qa
    · rw [if_pos hc] at hp
      rcases List.mem_cons.1 hp with h | h
      · rw [h]
        rw [show ((qb.set i 1, qa - w) : List ℚ × ℚ).1 = qb.set i 1 from rfl,
          getD_set_ne _ _ _ hq]
        exact hfresh (qb, qa) (by simp)
      · exact hfresh p (by simp [h])
    · rw [if_neg hc] at hp
      rcases List.mem_cons.1 hp with h | h
      · rw [h]
        exact hfresh (qb, qa) (by simp)
      · exact ih (fun p hp => hfresh p (by simp [hp])) p h

theorem ff_insert_nonempty (n i : ℕ) (w : ℚ) (state : List (List ℚ × ℚ)) (hi : i < n)
    (hlen : ∀ p ∈ state, p.1.length = n)
    (hne : ∀ p ∈ state, ∃ j, p.1.getD j 0 = 1) :
    ∀ p ∈ ff_insert n i w state, ∃ j, p.1.getD j 0 = 1 := by
  induction state with
  | nil =>
    intro p hp
    rw [show ff_insert n i w [] = [((List.replicate n 0).set i 1, 1 - w)] from rfl] at hp
    rw [List.mem_singleton.1 hp]
    exact ⟨i, getD_set_self _ _ _ _ (by simp [hi])⟩
  | cons q state ih =>
    obtain ⟨qb, qa⟩ := q
    intro p hp
    rw [ff_insert] at hp
    by_cases hc : w < qa
    · rw [if_pos hc] at hp
      rcases List.mem_cons.1 hp with h | h
      · rw [h]
        exact ⟨i, getD_set_self _ _ _ _ (by rw [hlen (qb, qa) (by simp)]; exact hi)⟩
      · exact hne p (by simp [h])
    · rw [if_neg hc] at hp
      rcases List.mem_cons.1 hp with h | h
      · rw [h]
        exact hne (qb, qa) (by simp)
      · exact ih (fun p hp => hlen p (by simp [hp])) (fun p hp => hne p (by simp [hp])) p h

theorem first_fit_loop_ne_nil (n : ℕ) (items : List (ℕ × ℚ)) (state : List (List ℚ × ℚ))
    (hne : state ≠ []) : first_fit_loop n items state ≠ [] := by
  induction items generalizing state with
  | nil => simpa [first_fit_loop] using hne
  | cons p rest ih =>
    obtain ⟨i, w⟩ := p
    rw [first_fit_loop]
    exact ih _ (ff_insert_ne_nil n i w state)

theorem first_fit_loop_props (ws : List ℚ) (items : List (ℕ × ℚ))
    (state : List (List ℚ × ℚ))
    (hitems : ∀ p ∈ items, p.1 < ws.length ∧ ws.getD p.1 0 = p.2 ∧ 0 < p.2 ∧ p.2 < 1)
    (hnodup : (items.map Prod.fst).Nodup)
    (hfresh : ∀ p ∈ items, ∀ q ∈ state, q.1.getD p.1 0 = 0)
    (hlen : ∀ q ∈ state, q.1.length = ws.length)
    (hinv : ∀ q ∈ state, binLoad ws q.1 = 1 - q.2 ∧ 0 ≤ q.2) :
    (∀ q ∈ first_fit_loop ws.length items state, q.1.length = ws.length) ∧
    (∀ q ∈ first_fit_loop ws.length items state, binLoad ws q.1 = 1 - q.2 ∧ 0 ≤ q.2) ∧
    (∀ j, countAt ((first_fit_loop ws.length items state).map Prod.fst) j =
      countAt (state.map Prod.fst) j + (if j ∈ items.map Prod.fst then 1 else 0)) := by
  induction items generalizing state with
  | nil =>
    refine ⟨hlen, hinv, ?_⟩
    intro j
    rw [first_fit_loop]
    simp
  | cons p rest ih =>
    obtain ⟨i, w⟩ := p
    obtain ⟨hi, hwi, hwpos, hwlt⟩ := hitems (i, w) (by simp)
    have hnodup2 : (rest.map Prod.fst).Nodup := (List.nodup_cons.1 (by simpa using hnodup)).2
    have hinotin : i ∉ rest.map Prod.fst := (List.nodup_cons.1 (by simpa using hnodup)).1
    have hne_of_mem : ∀ q ∈ rest, q.1 ≠ i := by
      intro q hq he
      exact hinotin (he ▸ List.mem_map_of_mem Prod.fst hq)
    have hlen2 : ∀ q ∈ ff_insert ws.length i w state, q.1.length = ws.length :=
      ff_insert_length ws.length i w state hlen
    have hinv2 : ∀ q ∈ ff_insert ws.length i w state, binLoad ws q.1 = 1 - q.2 ∧ 0 ≤ q.2 :=
      ff_insert_load ws i w state hi hwi hwlt hinv hlen
        (fun q hq => hfresh (i, w) (by simp) q hq)
    have hfresh2 : ∀ p ∈ rest, ∀ q ∈ ff_insert ws.length i w state, q.1.getD p.1 0 = 0 :=
      fun p hp => ff_insert_fresh ws.length i w state p.1 (hne_of_mem p hp)
        (fun q hq => hfresh p (by simp [hp]) q hq)
    obtain ⟨c1, c2, c3⟩ := ih (ff_insert ws.length i w state)
      (fun q hq => hitems q (by simp [hq])) hnodup2 hfresh2 hlen2 hinv2
    rw [first_fit_loop]
    refine ⟨c1, c2, ?_⟩
    intro j
    rw [c3 j, ff_insert_countAt ws.length i w state j hi hlen
      (fun q hq => hfresh (i, w) (by simp) q hq)]
    have hiff : (j ∈ List.map Prod.fst ((i, w) :: rest)) ↔
        (j = i ∨ j ∈ List.map Prod.fst rest) := by
      simp
    by_cases hji : j = i
    · subst hji
      rw [if_pos rfl, if_neg hinotin, if_pos (hiff.2 (Or.inl rfl))]
      ring
    · rw [if_neg hji]
      by_cases hjr : j ∈ List.map Prod.fst rest
      · rw [if_pos hjr, if_pos (hiff.2 (Or.inr hjr))]
        ring
      · rw [if_neg hjr, if_neg (fun h => (hiff.1 h).elim hji hjr)]
        ring

theorem first_fit_loop_nonempty (ws : List ℚ) (items : List (ℕ × ℚ))
    (state : List (List ℚ × ℚ))
    (hitems : ∀ p ∈ items, p.1 < ws.length)
    (hlen : ∀ q ∈ state, q.1.length = ws.length)
    (hne : ∀ q ∈ state, ∃ j, q.1.getD j 0 = 1) :
    ∀ q ∈ first_fit_loop ws.length items state, ∃ j, q.1.getD j 0 = 1 := by
  induction items generalizing state with
  | nil =>
    intro q hq
    rw [first_fit_loop] at hq
    exact hne q hq
  | cons p rest ih =>
    obtain ⟨i, w⟩ := p
    have hi : i < ws.length := (hitems (i, w) (by simp))
    intro q hq
    rw [first_fit_loop] at hq
    exact ih (ff_insert ws.length i w state)
      (fun p hp => hitems p (by simp [hp]))
      (ff_insert_length ws.length i w state hlen)
      (ff_insert_nonempty ws.length i w state hi hlen hne) q hq

/-- Packaged invariants of `first_fit` on widths in `(0, 1)`. -/
theorem first_fit_props (ws : List ℚ) (hws : ∀ s ∈ ws, 0 < s ∧ s < 1) :
    first_fit ws ≠ [] ∧
    (∀ b ∈ first_fit ws, b.length = ws.length) ∧
    (∀ b ∈ first_fit ws, binLoad ws b ≤ 1) ∧
    (∀ j, j < ws.length → countAt (first_fit ws) j = 1) := by
  have hitems : ∀ p ∈ ws.enum, p.1 < ws.length ∧ ws.getD p.1 0 = p.2 ∧ 0 < p.2 ∧ p.2 < 1 := by
    intro p hp
    obtain ⟨h1, h2, h3⟩ := mem_enum_spec ws 0 p hp
    exact ⟨h1, h2, (hws p.2 h3).1, (hws p.2 h3).2⟩
  obtain ⟨c1, c2, c3⟩ := first_fit_loop_props ws ws.enum
    [(List.replicate ws.length 0, 1)] hitems (enum_fst_nodup ws)
    (fun p _ q hq => by
      rw [List.mem_singleton.1 hq]
      exact getD_replicate_zero _ _)
    (by simp)
    (by
      intro q hq
      rw [List.mem_singleton.1 hq]
      refine ⟨?_, by norm_num⟩
      rw [show ((List.replicate ws.length (0 : ℚ), (1 : ℚ)) : List ℚ × ℚ).1 =
        List.replicate ws.length 0 from rfl, binLoad_replicate_zero]
      norm_num)
  refine ⟨?_, ?_, ?_, ?_⟩
  · rw [first_fit]
    simp only [ne_eq, List.map_eq_nil_iff]
    exact first_fit_loop_ne_nil ws.length ws.enum _ (by simp)
  · intro b hb
    rw [first_fit] at hb
    obtain ⟨q, hq, hqb⟩ := List.mem_map.1 hb
    rw [← hqb]
    exact c1 q hq
  · intro b hb
    rw [first_fit] at hb
    obtain ⟨q, hq, hqb⟩ := List.mem_map.1 hb
    obtain ⟨h1, h2⟩ := c2 q hq
    rw [← hqb, h1]
    linarith
  · intro j hj
    rw [first_fit, c3 j]
    have hjmem : j ∈ ws.enum.map Prod.fst := by
      rw [List.enum_eq_enumFrom, List.enumFrom_map_fst]
      simpa using hj
    rw [if_pos hjmem]
    simp only [List.map_cons, List.map_nil, countAt_cons, countAt_nil]
    rw [getD_replicate_zero]
    ring

/-! ### The argsort / undo_sort permutation machinery of FIRST-FIT-DECREASING -/

theorem argsort_decreasing_perm (ws : List ℚ) :
    (argsort_decreasing ws).Perm (List.range ws.length) := by
  have h1 : (List.insertionSort (fun p q : ℕ × ℚ => q.2 ≤ p.2) ws.enum).Perm ws.enum :=
    List.perm_insertionSort _ _
  have h2 := h1.map Prod.fst
  have h3 : ws.enum.map Prod.fst = List.range ws.length := by
    rw [List.enum_eq_enumFrom, List.enumFrom_map_fst, List.range_eq_range']
  rw [argsort_decreasing]
  rw [h3] at h2
  exact h2

theorem argsort_length (ws : List ℚ) : (argsort_decreasing ws).length = ws.length := by
  rw [(argsort_decreasing_perm ws).length_eq, List.length_range]

theorem argsort_mem_lt (ws : List ℚ) : ∀ k ∈ argsort_decreasing ws, k < ws.length := by
  intro k hk
  have h := ((argsort_decreasing_perm ws).mem_iff).1 hk
  simpa using h

/-- Core property of the scatter-write fold that builds `undo_sort`. -/
theorem scatter_foldl (ps : List (ℕ × ℕ)) (acc : List ℕ)
    (hnodup : (ps.map Prod.snd).Nodup)
    (hbound : ∀ p ∈ ps, p.2 < acc.length) :
    ((ps.foldl (fun a q => a.set q.2 q.1) acc).length = acc.length) ∧
    (∀ p ∈ ps, (ps.foldl (fun a q => a.set q.2 q.1) acc).getD p.2 0 = p.1) ∧
    (∀ j, (∀ p ∈ ps, p.2 ≠ j) →
      (ps.foldl (fun a q => a.set q.2 q.1) acc).getD j 0 = acc.getD j 0) := by
  induction ps generalizing acc with
  | nil => exact ⟨rfl, by simp, fun j _ => rfl⟩
  | cons q ps ih =>
    obtain ⟨k, v⟩ := q
    have hnodup2 : (ps.map Prod.snd).Nodup := (List.nodup_cons.1 (by simpa using hnodup)).2
    have hvnotin : v ∉ ps.map Prod.snd := (List.nodup_cons.1 (by simpa using hnodup)).1
    have hvne : ∀ p ∈ ps, p.2 ≠ v := by
      intro p hp he
      exact hvnotin (he ▸ List.mem_map_of_mem Prod.snd hp)
    obtain ⟨c1, c2, c3⟩ := ih (acc.set v k) hnodup2
      (fun p hp => by simpa using hbound p (by simp [hp]))
    rw [List.foldl_cons]
    refine ⟨by rw [c1]; simp, ?_, ?_⟩
    · intro p hp
      rcases List.mem_cons.1 hp with h | h
      · subst h
        show (ps.foldl (fun a q => a.set q.2 q.1) (acc.set v k)).getD v 0 = k
        rw [c3 v (fun p2 hp2 => hvne p2 hp2)]
        exact getD_set_self acc v k 0 (hbound (k, v) (by simp))
      · exact c2 p h
    · intro j hj
      rw [c3 j (fun p hp => hj p (by simp [hp]))]
      exact getD_set_ne acc k 0 (fun e => hj (k, v) (by simp) e.symm)

/-- All properties of `undo_sort indices` needed when `indices` is a
permutation of `0, …, n-1`: it has length `n`, it is the two-sided inverse of
`indices` as a function on `{0, …, n-1}`, and it is itself a permutation of
`0, …, n-1`. -/
theorem undo_sort_props (ind : List ℕ) (hperm : ind.Perm (List.range ind.length)) :
    (undo_sort ind).length = ind.length ∧
    (∀ k, k < ind.length → (undo_sort ind).getD (ind.getD k 0) 0 = k) ∧
    (∀ j, j < ind.length →
      (undo_sort ind).getD j 0 < ind.length ∧
        ind.getD ((undo_sort ind).getD j 0) 0 = j) ∧
    (undo_sort ind).Perm (List.range ind.length) := by
  have hnodup : ind.Nodup := (List.Perm.nodup_iff hperm).2 (List.nodup_range _)
  have hbound : ∀ v ∈ ind, v < ind.length := by
    intro v hv
    have h := hperm.mem_iff.1 hv
    simpa using h
  have hsnd : ind.enum.map Prod.snd = ind := by
    rw [List.enum_eq_enumFrom, List.enumFrom_map_snd]
  obtain ⟨c1, c2, c3⟩ := scatter_foldl ind.enum (List.replicate ind.length 0)
    (by rw [hsnd]; exact hnodup)
    (fun p hp => by
      simp only [List.length_replicate]
      exact hbound p.2 (hsnd ▸ List.mem_map_of_mem Prod.snd hp))
  have hlen : (undo_sort ind).length = ind.length := by
    rw [undo_sort, c1]
    simp
  have hleft : ∀ k, k < ind.length → (undo_sort ind).getD (ind.getD k 0) 0 = k := by
    intro k hk
    have hmem : (k, ind.getD k 0) ∈ ind.enum := self_mem_enum ind 0 k hk
    exact c2 (k, ind.getD k 0) hmem
  have hright : ∀ j, j < ind.length →
      (undo_sort ind).getD j 0 < ind.length ∧
        ind.getD ((undo_sort ind).getD j 0) 0 = j := by
    intro j hj
    have hjmem : j ∈ ind := hperm.mem_iff.2 (by simpa using hj)
    obtain ⟨k, hk, hkj⟩ := List.mem_iff_getElem.1 hjmem
    have hkD : ind.getD k 0 = j := by
      rw [List.getD_eq_getElem _ 0 hk]
      exact hkj
    have h1 : (undo_sort ind).getD j 0 = k := by
      rw [← hkD]
      exact hleft k hk
    rw [h1, hkD]
    exact ⟨hk, rfl⟩
  refine ⟨hlen, hleft, hright, ?_⟩
  have hund : (undo_sort ind).Nodup := by
    rw [List.nodup_iff_injective_getElem]
    intro i1 i2 he
    have e1 : (undo_sort ind).getD i1.1 0 = (undo_sort ind)[i1.1] :=
      List.getD_eq_getElem _ 0 i1.2
    have e2 : (undo_sort ind).getD i2.1 0 = (undo_sort ind)[i2.1] :=
      List.getD_eq_getElem _ 0 i2.2
    have hi1 : i1.1 < ind.length := by rw [← hlen]; exact i1.2
    have hi2 : i2.1 < ind.length := by rw [← hlen]; exact i2.2
    have h1 := (hright i1.1 hi1).2
    have h2 := (hright i2.1 hi2).2
    have he2 : (undo_sort ind)[i1.1] = (undo_sort ind)[i2.1] := he
    have h3 : i1.1 = i2.1 := by
      rw [← h1, ← h2, e1, e2, he2]
    exact Fin.ext h3
  have hsub : undo_sort ind ⊆ List.range ind.length := by
    intro x hx
    obtain ⟨k, hk, hkx⟩ := List.mem_iff_getElem.1 hx
    have hkD : (undo_sort ind).getD k 0 = x := by
      rw [List.getD_eq_getElem _ 0 hk]
      exact hkx
    have hkl : k < ind.length := by rw [← hlen]; exact hk
    rw [List.mem_range, ← hkD]
    exact (hright k hkl).1
  have hsubperm := List.subperm_of_subset hund hsub
  exact hsubperm.perm_of_length_le (by rw [hlen]; simp)

/-! ### Transfer of loads and counts along the un-permutation -/

theorem zip_eq_map_range (u v : List ℚ) (h : u.length = v.length) :
    u.zip v = (List.range u.length).map fun j => (u.getD j 0, v.getD j 0) := by
  induction u generalizing v with
  | nil => simp
  | cons a u ih =>
    cases v with
    | nil => simp at h
    | cons b v =>
      rw [List.zip_cons_cons, ih v (by simpa using h),
        show (a :: u).length = u.length + 1 from rfl, List.range_succ_eq_map,
        List.map_cons, List.map_map]
      rfl

theorem map_eq_map_range {β : Type _} (l : List ℕ) (f : ℕ → β) :
    l.map f = (List.range l.length).map fun j => f (l.getD j 0) := by
  induction l with
  | nil => simp
  | cons a l ih =>
    rw [List.map_cons, ih, show (a :: l).length = l.length + 1 from rfl,
      List.range_succ_eq_map, List.map_cons, List.map_map]
    rfl

theorem binLoad_permuted (ws sorted b : List ℚ) (undo : List ℕ)
    (hlen_s : sorted.length = ws.length)
    (hlen_b : b.length = ws.length)
    (hlen_u : undo.length = ws.length)
    (hperm_u : undo.Perm (List.range ws.length))
    (hpoint : ∀ j, j < ws.length → ws.getD j 0 = sorted.getD (undo.getD j 0) 0) :
    binLoad ws (permute_by undo b) = binLoad sorted b := by
  have hout_len : (permute_by undo b).length = ws.length := by
    simp [permute_by, hlen_u]
  have hchain : (ws.zip (permute_by undo b)).Perm (sorted.zip b) := by
    rw [zip_eq_map_range ws _ (by rw [hout_len])]
    have hcong : ∀ j ∈ List.range ws.length,
        ((ws.getD j 0, (permute_by undo b).getD j 0) : ℚ × ℚ) =
          (fun k => (sorted.getD k 0, b.getD k 0)) (undo.getD j 0) := by
      intro j hj
      have hjn : j < ws.length := List.mem_range.1 hj
      have e1 : (permute_by undo b).getD j 0 = b.getD (undo.getD j 0) 0 := by
        rw [permute_by]
        exact getD_map_lt _ undo 0 0 (by rw [hlen_u]; exact hjn)
      rw [e1, hpoint j hjn]
    rw [List.map_congr_left hcong]
    rw [show ((List.range ws.length).map fun j =>
        (fun k => ((sorted.getD k 0 : ℚ), (b.getD k 0 : ℚ))) (undo.getD j 0)) =
        undo.map fun k => ((sorted.getD k 0 : ℚ), (b.getD k 0 : ℚ)) from by
      rw [map_eq_map_range undo _, hlen_u]]
    rw [zip_eq_map_range sorted b (by rw [hlen_s, hlen_b]), hlen_s]
    exact hperm_u.map _
  rw [binLoad, binLoad]
  exact List.Perm.sum_eq ((hchain.filter _).map _)

theorem first_fit_decreasing_eq (ws : List ℚ) :
    first_fit_decreasing ws =
      (first_fit (permute_by (argsort_decreasing ws) ws)).map
        fun b => permute_by (undo_sort (argsort_decreasing ws)) b := rfl

theorem sorted_widths_length (ws : List ℚ) :
    (permute_by (argsort_decreasing ws) ws).length = ws.length := by
  rw [permute_by, List.length_map, argsort_length]

theorem sorted_widths_mem (ws : List ℚ) :
    ∀ v ∈ permute_by (argsort_decreasing ws) ws, v ∈ ws := by
  intro v hv
  rw [permute_by] at hv
  obtain ⟨i, hi, rfl⟩ := List.mem_map.1 hv
  exact getD_mem ws 0 (argsort_mem_lt ws i hi)

/-- Packaged invariants of `first_fit_decreasing` on widths in `(0, 1)`. -/
theorem first_fit_decreasing_props (ws : List ℚ) (hws : ∀ s ∈ ws, 0 < s ∧ s < 1) :
    first_fit_decreasing ws ≠ [] ∧
    (∀ b ∈ first_fit_decreasing ws, b.length = ws.length) ∧
    (∀ b ∈ first_fit_decreasing ws, binLoad ws b ≤ 1) ∧
    (∀ j, j < ws.length → countAt (first_fit_decreasing ws) j = 1) := by
  have hindlen : (argsort_decreasing ws).length = ws.length := argsort_length ws
  have hindperm : (argsort_decreasing ws).Perm
      (List.range (argsort_decreasing ws).length) := by
    rw [hindlen]
    exact argsort_decreasing_perm ws
  obtain ⟨hulen, hleft, hright, huperm⟩ := undo_sort_props (argsort_decreasing ws) hindperm
  have hulen2 : (undo_sort (argsort_decreasing ws)).length = ws.length := by
    rw [hulen, hindlen]
  have huperm2 : (undo_sort (argsort_decreasing ws)).Perm (List.range ws.length) := by
    rw [← hindlen]
    exact huperm
  have hslen : (permute_by (argsort_decreasing ws) ws).length = ws.length :=
    sorted_widths_length ws
  have hsws : ∀ s ∈ permute_by (argsort_decreasing ws) ws, 0 < s ∧ s < 1 :=
    fun s hs => hws s (sorted_widths_mem ws s hs)
  obtain ⟨f1, f2, f3, f4⟩ := first_fit_props (permute_by (argsort_decreasing ws) ws) hsws
  have hpoint : ∀ j, j < ws.length →
      ws.getD j 0 = (permute_by (argsort_decreasing ws) ws).getD
        ((undo_sort (argsort_decreasing ws)).getD j 0) 0 := by
    intro j hj
    have hjind : j < (argsort_decreasing ws).length := by
      rw [hindlen]
      exact hj
    obtain ⟨hu1, hu2⟩ := hright j hjind
    rw [permute_by, getD_map_lt _ (argsort_decreasing ws) 0 0 hu1, hu2]
  refine ⟨?_, ?_, ?_, ?_⟩
  · rw [first_fit_decreasing_eq]
    simpa using f1
  · intro b hb
    rw [first_fit_decreasing_eq] at hb
    obtain ⟨c, hc, rfl⟩ := List.mem_map.1 hb
    rw [permute_by, List.length_map]
    exact hulen2
  · intro b hb
    rw [first_fit_decreasing_eq] at hb
    obtain ⟨c, hc, rfl⟩ := List.mem_map.1 hb
    rw [binLoad_permuted ws (permute_by (argsort_decreasing ws) ws) c
      (undo_sort (argsort_decreasing ws)) hslen ((f2 c hc).trans hslen) hulen2
      huperm2 hpoint]
    exact f3 c hc
  · intro j hj
    have hjind : j < (argsort_decreasing ws).length := by
      rw [hindlen]
      exact hj
    obtain ⟨hu1, _⟩ := hright j hjind
    rw [first_fit_decreasing_eq, countAt, List.map_map]
    have hcong : ∀ c ∈ first_fit (permute_by (argsort_decreasing ws) ws),
        ((fun b => b.getD j 0) ∘ fun b =>
          permute_by (undo_sort (argsort_decreasing ws)) b) c =
        c.getD ((undo_sort (argsort_decreasing ws)).getD j 0) 0 := by
      intro c _
      show (permute_by (undo_sort (argsort_decreasing ws)) c).getD j 0 = _
      rw [permute_by]
      exact getD_map_lt _ _ 0 0 (by rw [hulen2]; exact hj)
    rw [List.map_congr_left hcong]
    exact f4 ((undo_sort (argsort_decreasing ws)).getD j 0)
      (by rw [hslen, ← hindlen]; exact hu1)

/-! ### No packer emits an empty bin on a nonempty input (C9 machinery) -/

theorem next_fit_nonempty_bins (ws : List ℚ) (hne : ws ≠ [])
    (hws : ∀ s ∈ ws, 0 < s ∧ s < 1) :
    ∀ b ∈ next_fit ws, ∃ j, b.getD j 0 = 1 := by
  refine next_fit_loop_nonempty_bins ws ws.enum [] _ 1 ?_ (by simp) (by simp)
    (Or.inr rfl) ?_
  · intro p hp
    obtain ⟨h1, _, h3⟩ := mem_enum_spec ws 0 p hp
    exact ⟨h1, (hws p.2 h3).2⟩
  · intro h
    exfalso
    apply hne
    have h2 : ws.enum.length = 0 := by rw [h]; rfl
    have h3 : ws.length = 0 := by
      rw [List.enum_eq_enumFrom] at h2
      simpa using h2
    exact List.eq_nil_of_length_eq_zero h3

theorem first_fit_nonempty_bins (ws : List ℚ) (hne : ws ≠ [])
    (hws : ∀ s ∈ ws, 0 < s ∧ s < 1) :
    ∀ b ∈ first_fit ws, ∃ j, b.getD j 0 = 1 := by
  obtain ⟨w, ws', rfl⟩ : ∃ w ws', ws = w :: ws' := by
    cases ws with
    | nil => exact absurd rfl hne
    | cons w ws' => exact ⟨w, ws', rfl⟩
  have hw1 : w < 1 := (hws w (by simp)).2
  have hstep : ff_insert (w :: ws').length 0 w
      [(List.replicate (w :: ws').length 0, 1)] =
      [((List.replicate (w :: ws').length 0).set 0 1, 1 - w)] := by
    rw [ff_insert, if_pos hw1]
  intro b hb
  rw [first_fit, List.enum_cons, first_fit_loop, hstep] at hb
  obtain ⟨q, hq, hqb⟩ := List.mem_map.1 hb
  rw [← hqb]
  refine first_fit_loop_nonempty (w :: ws') (ws'.enumFrom 1) _ ?_ ?_ ?_ q hq
  · intro p hp
    obtain ⟨h1, h2, _, _⟩ := mem_enumFrom_spec ws' 0 1 p hp
    simp only [List.length_cons]
    omega
  · intro q2 hq2
    rw [List.mem_singleton.1 hq2]
    simp
  · intro q2 hq2
    rw [List.mem_singleton.1 hq2]
    exact ⟨0, getD_set_self _ _ _ _ (by simp)⟩

theorem first_fit_decreasing_nonempty_bins (ws : List ℚ) (hne : ws ≠ [])
    (hws : ∀ s ∈ ws, 0 < s ∧ s < 1) :
    ∀ b ∈ first_fit_decreasing ws, ∃ j, b.getD j 0 = 1 := by
  have hindlen : (argsort_decreasing ws).length = ws.length := argsort_length ws
  have hindperm : (argsort_decreasing ws).Perm
      (List.range (argsort_decreasing ws).length) := by
    rw [hindlen]
    exact argsort_decreasing_perm ws
  obtain ⟨hulen, hleft, hright, _⟩ := undo_sort_props (argsort_decreasing ws) hindperm
  have hulen2 : (undo_sort (argsort_decreasing ws)).length = ws.length := by
    rw [hulen, hindlen]
  have hslen : (permute_by (argsort_decreasing ws) ws).length = ws.length :=
    sorted_widths_length ws
  have hsws : ∀ s ∈ permute_by (argsort_decreasing ws) ws, 0 < s ∧ s < 1 :=
    fun s hs => hws s (sorted_widths_mem ws s hs)
  have hsne : permute_by (argsort_decreasing ws) ws ≠ [] := by
    intro h
    apply hne
    have h2 : (permute_by (argsort_decreasing ws) ws).length = 0 := by rw [h]; rfl
    rw [hslen] at h2
    exact List.eq_nil_of_length_eq_zero h2
  obtain ⟨_, f2, _, _⟩ := first_fit_props (permute_by (argsort_decreasing ws) ws) hsws
  intro b hb
  rw [first_fit_decreasing_eq] at hb
  obtain ⟨c, hc, rfl⟩ := List.mem_map.1 hb
  obtain ⟨k, hk⟩ := first_fit_nonempty_bins (permute_by (argsort_decreasing ws) ws)
    hsne hsws c hc
  have hkc : k < c.length := by
    by_contra hcon
    push_neg at hcon
    rw [List.getD_eq_default _ _ hcon] at hk
    exact one_ne_zero hk.symm
  have hkind : k < (argsort_decreasing ws).length := by
    rw [hindlen, ← hslen, ← f2 c hc]
    exact hkc
  refine ⟨(argsort_decreasing ws).getD k 0, ?_⟩
  show (permute_by (undo_sort (argsort_decreasing ws)) c).getD
    ((argsort_decreasing ws).getD k 0) 0 = 1
  have hindk : (argsort_decreasing ws).getD k 0 < (undo_sort (argsort_decreasing ws)).length := by
    rw [hulen2]
    exact argsort_mem_lt ws _ (getD_mem _ 0 hkind)
  rw [permute_by, getD_map_lt _ _ 0 0 hindk, hleft k hkind, hk]

/-! ### Claim theorems for the packers -/

/-- Claim C1: on any input sequence of sizes strictly between `0` and `1`, each
of the three packers produces a packing that the validator certifies. -/
theorem packers_produce_valid_packings (ws : List ℚ)
    (hws : ∀ s ∈ ws, 0 < s ∧ s < 1) :
    is_valid_packing ws (next_fit ws) = Except.ok true ∧
    is_valid_packing ws (first_fit ws) = Except.ok true ∧
    is_valid_packing ws (first_fit_decreasing ws) = Except.ok true := by
  have hws2 : ∀ s ∈ ws, 0 ≤ s ∧ s ≤ 1 :=
    fun s hs => ⟨le_of_lt (hws s hs).1, le_of_lt (hws s hs).2⟩
  obtain ⟨n1, n2, n3, n4⟩ := next_fit_props ws hws
  obtain ⟨g1, g2, g3, g4⟩ := first_fit_props ws hws
  obtain ⟨d1, d2, d3, d4⟩ := first_fit_decreasing_props ws hws
  exact ⟨valid_of_packing_props ws _ hws2 n1 n2 n3 n4,
    valid_of_packing_props ws _ hws2 g1 g2 g3 g4,
    valid_of_packing_props ws _ hws2 d1 d2 d3 d4⟩

/-- Witness for `packers_produce_valid_packings`. -/
theorem packers_produce_valid_packings_witness :
    is_valid_packing [1/2, 1/3, 3/4] (next_fit [1/2, 1/3, 3/4]) = Except.ok true ∧
    is_valid_packing [1/2, 1/3, 3/4] (first_fit [1/2, 1/3, 3/4]) = Except.ok true ∧
    is_valid_packing [1/2, 1/3, 3/4] (first_fit_decreasing [1/2, 1/3, 3/4]) =
      Except.ok true :=
  packers_produce_valid_packings [1/2, 1/3, 3/4] (by with_unfolding_all decide)

/-- Claim C2: the membership vectors produced by `first_fit_decreasing` are
indexed by the original item order: item `i` lies in output bin `j` exactly
when the sorted position of `i` lies in bin `j` of `first_fit` applied to the
decreasingly sorted sequence. -/
theorem first_fit_decreasing_membership (ws : List ℚ) (i j : ℕ)
    (hi : i < ws.length) (hj : j < (first_fit_decreasing ws).length) :
    ((first_fit_decreasing ws).getD j []).getD i 0 = 1 ↔
      ((first_fit (permute_by (argsort_decreasing ws) ws)).getD j []).getD
        (sorted_position ws i) 0 = 1 := by
  have hindlen : (argsort_decreasing ws).length = ws.length := argsort_length ws
  have hindperm : (argsort_decreasing ws).Perm
      (List.range (argsort_decreasing ws).length) := by
    rw [hindlen]
    exact argsort_decreasing_perm ws
  have hulen2 : (undo_sort (argsort_decreasing ws)).length = ws.length := by
    rw [(undo_sort_props (argsort_decreasing ws) hindperm).1, hindlen]
  have hj2 : j < (first_fit (permute_by (argsort_decreasing ws) ws)).length := by
    rw [first_fit_decreasing_eq, List.length_map] at hj
    exact hj
  rw [first_fit_decreasing_eq,
    getD_map_lt (fun b => permute_by (undo_sort (argsort_decreasing ws)) b) _ [] [] hj2,
    permute_by, getD_map_lt _ _ 0 0 (by rw [hulen2]; exact hi)]
  exact Iff.rfl

/-- Witness for `first_fit_decreasing_membership`. -/
theorem first_fit_decreasing_membership_witness :
    (((first_fit_decreasing [1/2, 1/4]).getD 0 []).getD 0 0 = 1 ↔
      ((first_fit (permute_by (argsort_decreasing [1/2, 1/4]) [1/2, 1/4])).getD 0 []).getD
        (sorted_position [1/2, 1/4] 0) 0 = 1) :=
  first_fit_decreasing_membership [1/2, 1/4] 0 0 (by norm_num)
    (by with_unfolding_all decide)

/-- Claim C4: in `first_fit`, an item is placed in the first open bin whose
available space strictly exceeds its size (a bin whose available space equals
the size does not accept it), and when no open bin qualifies a new bin holding
just this item is appended with available space `1 - size`. -/
theorem first_fit_placement_rule (n i : ℕ) (w : ℚ) :
    (∀ pre b a post, (∀ p ∈ pre, p.2 ≤ w) → w < a →
      ff_insert n i w (pre ++ (b, a) :: post) = pre ++ (b.set i 1, a - w) :: post) ∧
    (∀ state, (∀ p ∈ state, p.2 ≤ w) →
      ff_insert n i w state = state ++ [((List.replicate n 0).set i 1, 1 - w)]) :=
  ⟨fun pre b a post hpre hfit => ff_insert_place n i w pre b a post hpre hfit,
   fun state hnofit => ff_insert_new_bin n i w state hnofit⟩

/-- Witness for `first_fit_placement_rule`: a bin whose available space is
exactly the item size is skipped in favour of a later strictly larger bin, and
an item fitting nowhere opens a new bin. -/
theorem first_fit_placement_rule_witness :
    ff_insert 2 1 (1/2) [([0, 0], 1/2), ([0, 0], 3/4)] =
      [((([0, 0] : List ℚ)), (1/2 : ℚ)), (([0, 0] : List ℚ).set 1 1, 3/4 - 1/2)] ∧
    ff_insert 2 0 (1/2) [([0, 0], 1/2)] =
      [((([0, 0] : List ℚ)), (1/2 : ℚ)),
        ((List.replicate 2 (0 : ℚ)).set 0 1, 1 - 1/2)] :=
  ⟨(first_fit_placement_rule 2 1 (1/2)).1 [([0, 0], 1/2)] [0, 0] (3/4) []
      (by with_unfolding_all decide) (by with_unfolding_all decide),
   (first_fit_placement_rule 2 0 (1/2)).2 [([0, 0], 1/2)]
      (by with_unfolding_all decide)⟩

/-- Claim C5: in the NEXT-FIT loop a new bin is opened exactly when the item's
size strictly exceeds the open bin's available space; when the size equals the
available space the item is placed in the current bin. -/
theorem next_fit_open_bin_rule (n i : ℕ) (w : ℚ) (rest : List (ℕ × ℚ))
    (bins : List (List ℚ)) (cur : List ℚ) (avail : ℚ) :
    (avail < w →
      next_fit_loop n ((i, w) :: rest) bins cur avail =
        next_fit_loop n rest (bins ++ [cur]) ((List.replicate n 0).set i 1) (1 - w)) ∧
    (w ≤ avail →
      next_fit_loop n ((i, w) :: rest) bins cur avail =
        next_fit_loop n rest bins (cur.set i 1) (avail - w)) := by
  constructor
  · intro h
    rw [next_fit_loop, if_pos h]
  · intro h
    rw [next_fit_loop, if_neg (not_lt.2 h)]

/-- Witness for `next_fit_open_bin_rule`: an item whose size equals the
available space stays in the current bin; a strictly larger one opens a new
bin. -/
theorem next_fit_open_bin_rule_witness :
    next_fit_loop 2 [(1, 1/2)] [] [1, 0] (1/2) =
      next_fit_loop 2 [] [] (([1, 0] : List ℚ).set 1 1) (1/2 - 1/2) ∧
    next_fit_loop 2 [(1, 3/4)] [] [1, 0] (1/2) =
      next_fit_loop 2 [] ([] ++ [[1, 0]]) ((List.replicate 2 (0 : ℚ)).set 1 1)
        (1 - 3/4) :=
  ⟨(next_fit_open_bin_rule 2 1 (1/2) [] [] [1, 0] (1/2)).2 (by norm_num),
   (next_fit_open_bin_rule 2 1 (3/4) [] [] [1, 0] (1/2)).1 (by norm_num)⟩

/-- Claim C7: the worked example from the notebook: `NEXT-FIT` uses 5 bins,
`FIRST-FIT` 4 bins, and `FIRST-FIT-DECREASING` 3 bins, with exactly the stated
contents (membership vectors are over original item indices). -/
theorem example_packings :
    next_fit [9/100, 69/100, 79/100, 29/100, 89/100, 19/100] =
      [[1,1,0,0,0,0],[0,0,1,0,0,0],[0,0,0,1,0,0],[0,0,0,0,1,0],[0,0,0,0,0,1]] ∧
    first_fit [9/100, 69/100, 79/100, 29/100, 89/100, 19/100] =
      [[1,1,0,0,0,1],[0,0,1,0,0,0],[0,0,0,1,0,0],[0,0,0,0,1,0]] ∧
    first_fit_decreasing [9/100, 69/100, 79/100, 29/100, 89/100, 19/100] =
      [[1,0,0,0,1,0],[0,0,1,0,0,1],[0,1,0,1,0,0]] :=
  ⟨by with_unfolding_all rfl, by with_unfolding_all rfl, by with_unfolding_all rfl⟩

/-- Claim C8: on the empty input `next_fit` returns exactly one bin containing
no items (the initial bin is always appended). -/
theorem next_fit_empty_input : next_fit ([] : List ℚ) = [[]] := rfl

/-- Claim C9: on a nonempty input with sizes in `(0, 1)`, every bin emitted by
each of the three packers contains at least one item. -/
theorem packers_no_empty_bins (ws : List ℚ) (hne : ws ≠ [])
    (hws : ∀ s ∈ ws, 0 < s ∧ s < 1) :
    (∀ b ∈ next_fit ws, ∃ j, j < ws.length ∧ b.getD j 0 = 1) ∧
    (∀ b ∈ first_fit ws, ∃ j, j < ws.length ∧ b.getD j 0 = 1) ∧
    (∀ b ∈ first_fit_decreasing ws, ∃ j, j < ws.length ∧ b.getD j 0 = 1) := by
  obtain ⟨_, n2, _, _⟩ := next_fit_props ws hws
  obtain ⟨_, g2, _, _⟩ := first_fit_props ws hws
  obtain ⟨_, d2, _, _⟩ := first_fit_decreasing_props ws hws
  have up : ∀ bins : List (List ℚ), (∀ b ∈ bins, b.length = ws.length) →
      (∀ b ∈ bins, ∃ j, b.getD j 0 = 1) →
      ∀ b ∈ bins, ∃ j, j < ws.length ∧ b.getD j 0 = 1 := by
    intro bins hlen hex b hb
    obtain ⟨j, hj⟩ := hex b hb
    refine ⟨j, ?_, hj⟩
    by_contra hcon
    push_neg at hcon
    rw [List.getD_eq_default _ _ (by rw [hlen b hb]; exact hcon)] at hj
    exact one_ne_zero hj.symm
  exact ⟨up _ n2 (next_fit_nonempty_bins ws hne hws),
    up _ g2 (first_fit_nonempty_bins ws hne hws),
    up _ d2 (first_fit_decreasing_nonempty_bins ws hne hws)⟩

/-- Witness for `packers_no_empty_bins`. -/
theorem packers_no_empty_bins_witness :
    (∀ b ∈ next_fit [1/2, 2/3], ∃ j, j < ([(1:ℚ)/2, 2/3] : List ℚ).length ∧
      b.getD j 0 = 1) ∧
    (∀ b ∈ first_fit [1/2, 2/3], ∃ j, j < ([(1:ℚ)/2, 2/3] : List ℚ).length ∧
      b.getD j 0 = 1) ∧
    (∀ b ∈ first_fit_decreasing [1/2, 2/3], ∃ j, j < ([(1:ℚ)/2, 2/3] : List ℚ).length ∧
      b.getD j 0 = 1) :=
  packers_no_empty_bins [1/2, 2/3] (by simp) (by with_unfolding_all decide)

/-- Claim C10: on the empty input, `first_fit` and `first_fit_decreasing` each
return exactly one bin containing no items (the initial empty bin is never
removed). -/
theorem first_fit_empty_input :
    first_fit ([] : List ℚ) = [[]] ∧ first_fit_decreasing ([] : List ℚ) = [[]] :=
  ⟨rfl, rfl⟩

/-! The notebook's own `assert` test cases for the validator, checked against
the embedding. -/

example :
    is_valid_packing [3/10, 6/10, 9/10] [[1,1,0],[0,0,1]] = Except.ok true := by
  with_unfolding_all rfl

example :
    is_valid_packing [3/10, 6/10, 9/10] [[1,1,0],[0,1,1]] = Except.ok false := by
  with_unfolding_all rfl

example :
    is_valid_packing [3/10, 6/10, 9/10] [[1,0,0],[0,0,1]] = Except.ok false := by
  with_unfolding_all rfl

example :
    is_valid_packing [3/10, 6/10, 9/10] [[1,0,0],[0,2,1]] = Except.ok false := by
  with_unfolding_all rfl

example :
    is_valid_packing [3/10, 6/10, 9/10] [[1,0,0],[0,1,1]] = Except.ok false := by
  with_unfolding_all rfl

end BinPacking
